import Mathlib

/-!
Verification of the reminder scheduling subsystem of the
Everyday-Ally-Life-Study-Concierge repository.

Shallow embedding of `src/app/agents/reminder_agent.py` (class `ReminderAgent`)
and `src/app/memory/memory_bank.py` (class `MemoryBank`).

Modelling conventions:
* UTC instants are `Int` values (seconds since an arbitrary epoch).  The
  stored `when_iso` string is always produced by
  `when.astimezone(timezone.utc).isoformat()`, i.e. it is a normalized,
  timezone-aware UTC rendering; lexicographic order on those strings agrees
  with chronological order, and re-parsing one recovers the instant exactly,
  so the embedding stores the instant itself in the `when` field.
* Python `dict`s are association lists with insertion-order semantics:
  writing an existing key replaces the value in place, writing a new key
  appends at the end, exactly as `dict` iteration order behaves.
* Textual time inputs are classified by how `_parse_time` can consume them:
  strictly ISO-8601 parseable (`datetime.fromisoformat` succeeds), only
  leniently parseable (`dateutil.parser.parse` succeeds), unparseable, or
  the Python value `None`.  A parseable input carries its wall-clock reading
  `wall` (the timestamp the digits denote, read as if UTC) and its explicit
  UTC offset when one is present, so that the denoted instant is
  `wall - offset`.
* The nondeterministic pieces (the `uuid4` fresh id, the wall clock read by
  `datetime.now(timezone.utc)`, and whether the notification handler raises)
  are passed in as explicit parameters.
* Mutating methods become state-passing functions returning the Python
  return value together with the updated `(index, memory)` state.
-/

set_option autoImplicit false

namespace EverydayAlly

abbrev UserId := String
abbrev Rid := String

/-- The `status` field of a reminder dict: `scheduled | fired | cancelled |
snoozed` per the comment in `schedule_reminder`, plus `error` which the
background loop writes when the fire handler raises. -/
inductive RStatus where
  | scheduled
  | snoozed
  | fired
  | cancelled
  | error
deriving DecidableEq, Repr

/-- A reminder dict as built by `ReminderAgent.schedule_reminder`.
`when` is the instant denoted by the stored normalized-UTC `when_iso`
string; `fired_at` is absent until the background loop fires the
reminder. -/
structure Reminder where
  id : Rid
  when : Int
  message : String
  user_id : UserId
  status : RStatus
  created_at : Int
  fired_at : Option Int := none
deriving DecidableEq, Repr

/-- A `reminder_history` entry appended by `ReminderAgent._handle_fire`:
`{"id": ..., "when": now, "message": ...}`. -/
structure HistEntry where
  id : Rid
  when : Int
  message : String
deriving DecidableEq, Repr

/-- Dict read with default semantics of Python `dict.get` /
`d.get(k)`-style lookup: first binding of the key, `none` if absent. -/
def alGet {β : Type} (k : String) : List (String × β) → Option β
  | [] => none
  | (k₁, v) :: rest => if k₁ = k then some v else alGet k rest

/-- Dict write semantics of Python `d[k] = v`: replace in place when the key
exists (keeping its position in insertion order), append at the end
otherwise. -/
def alSet {β : Type} (k : String) (v : β) : List (String × β) → List (String × β)
  | [] => [(k, v)]
  | (k₁, v₁) :: rest => if k₁ = k then (k, v) :: rest else (k₁, v₁) :: alSet k v rest

/-- The slice of a user's preference bag that the reminder subsystem reads
and writes: the `reminders` mapping and the `reminder_history` list.  Other
attributes of the bag are never touched by the code under verification. -/
structure Prefs where
  reminders : List (Rid × Reminder) := []
  reminder_history : List HistEntry := []
deriving DecidableEq, Repr

/-- `MemoryBank` from `src/app/memory/memory_bank.py`, restricted to
`user_prefs` (the `saved_plans` side is unused by the reminder agent). -/
structure MemoryBank where
  user_prefs : List (UserId × Prefs) := []
deriving DecidableEq, Repr

/-- `MemoryBank.get_user_pref`: `self.user_prefs.get(user_id, {})`. -/
def MemoryBank.get_user_pref (m : MemoryBank) (u : UserId) : Prefs :=
  (alGet u m.user_prefs).getD {}

/-- `MemoryBank.set_user_pref`: `self.user_prefs[user_id] = pref`. -/
def MemoryBank.set_user_pref (m : MemoryBank) (u : UserId) (p : Prefs) : MemoryBank :=
  ⟨alSet u p m.user_prefs⟩

/-- The mutable state of a `ReminderAgent`: the in-memory index
`{user_id: {reminder_id: reminder}}` and the `MemoryBank` it persists
into. -/
structure AgentState where
  index : List (UserId × List (Rid × Reminder)) := []
  memory : MemoryBank := {}
deriving DecidableEq, Repr

/-- `self._index.get(user_id, {})`. -/
def userRems (st : AgentState) (u : UserId) : List (Rid × Reminder) :=
  (alGet u st.index).getD []

/-- Reminder stored in the index under `(u, rid)`. -/
def remOf (st : AgentState) (u : UserId) (rid : Rid) : Option Reminder :=
  alGet rid (userRems st u)

/-- The persisted `reminders` attribute for a user. -/
def persisted (st : AgentState) (u : UserId) : List (Rid × Reminder) :=
  (st.memory.get_user_pref u).reminders

/-- The persisted `reminder_history` attribute for a user. -/
def histOf (st : AgentState) (u : UserId) : List HistEntry :=
  (st.memory.get_user_pref u).reminder_history

/-- `ReminderAgent._persist_for_user`: read the user's pref bag (empty bag
when absent), overwrite its `reminders` attribute with a copy of the user's
index entry, write the bag back. -/
def persistForUser (st : AgentState) (u : UserId) : AgentState :=
  let prefs := st.memory.get_user_pref u
  { st with memory := st.memory.set_user_pref u { prefs with reminders := userRems st u } }

/-- Classification of the textual `when` argument by how
`ReminderAgent._parse_time` consumes it.  `wall` is the wall-clock
timestamp the text denotes read as if it were UTC, and the optional
`offset` is the explicit UTC offset carried by the text (in seconds), so
the denoted instant is `wall - offset`. -/
inductive TimeInput where
  /-- Python `None` passed for `when_iso`. -/
  | nullInput
  /-- `datetime.fromisoformat` succeeds. -/
  | iso (wall : Int) (offset : Option Int)
  /-- `datetime.fromisoformat` fails but `dateutil.parser.parse` succeeds. -/
  | lenient (wall : Int) (offset : Option Int)
  /-- Both parsers fail. -/
  | unparseable
deriving DecidableEq, Repr

/-- `ReminderAgent._parse_time`, with `now` the instant
`datetime.now(timezone.utc)` would return.  Strict ISO parse first, lenient
parse on failure, current instant on total failure or `None`; in both
parsing branches a result without timezone info gets UTC attached
(`dt.replace(tzinfo=timezone.utc)`), i.e. the wall-clock value is
reinterpreted as UTC, and an aware result is converted to UTC
(`dt.astimezone(timezone.utc)`), i.e. the offset is subtracted. -/
def parse_time (now : Int) : TimeInput → Int
  | .nullInput => now
  | .iso w off => w - off.getD 0
  | .lenient w off => w - off.getD 0
  | .unparseable => now

/-- `ReminderAgent.schedule_reminder`.  `rid` stands for
`reminder_id or str(uuid.uuid4())` (the fresh uuid is passed in
explicitly); `now` is the tick of the wall clock during the call. -/
def schedule_reminder (now : Int) (st : AgentState) (u : UserId)
    (when_in : TimeInput) (message : String) (rid : Rid) :
    Reminder × AgentState :=
  let w := parse_time now when_in
  let r : Reminder :=
    { id := rid, when := w, message := message, user_id := u,
      status := .scheduled, created_at := now }
  let st₁ : AgentState :=
    { st with index := alSet u (alSet rid r (userRems st u)) st.index }
  (r, persistForUser st₁ u)

/-- Stable insertion of a reminder into an ascending-by-`when` list: the new
element goes after every element whose key is `≤` its own, which is what a
stable ascending sort does with elements arriving later. -/
def insertLE (x : Reminder) : List Reminder → List Reminder
  | [] => [x]
  | y :: ys => if y.when ≤ x.when then y :: insertLE x ys else x :: y :: ys

/-- Stable ascending sort by `when`, processing elements left to right:
extensionally the sort performed by `items.sort(key=lambda r: r.get("when_iso", ""))`
(Python's sort is stable, and on normalized-UTC `when_iso` strings the
string key orders exactly like the instant). -/
def sortStable (l : List Reminder) : List Reminder :=
  l.foldl (fun acc x => insertLE x acc) []

/-- `ReminderAgent.list_reminders`: the values of the user's reminder dict in
insertion order, stably sorted ascending by the stored `when`. -/
def list_reminders (st : AgentState) (u : UserId) : List Reminder :=
  sortStable ((userRems st u).map Prod.snd)

/-- `ReminderAgent.cancel_reminder`. -/
def cancel_reminder (st : AgentState) (u : UserId) (rid : Rid) :
    Bool × AgentState :=
  match alGet rid (userRems st u) with
  | none => (false, st)
  | some r =>
    let st₁ : AgentState :=
      { st with index := alSet u (alSet rid { r with status := .cancelled } (userRems st u)) st.index }
    (true, persistForUser st₁ u)

/-- `ReminderAgent.snooze_reminder`: re-parse the stored `when_iso` (a
normalized aware UTC string, so parsing returns the stored instant), add
`minutes` minutes, mark snoozed, persist. -/
def snooze_reminder (st : AgentState) (u : UserId) (rid : Rid)
    (minutes : Int) : Option Reminder × AgentState :=
  match alGet rid (userRems st u) with
  | none => (none, st)
  | some r =>
    let r₁ : Reminder := { r with when := r.when + 60 * minutes, status := .snoozed }
    let st₁ : AgentState :=
      { st with index := alSet u (alSet rid r₁ (userRems st u)) st.index }
    (some r₁, persistForUser st₁ u)

/-- `ReminderAgent._handle_fire`: print the notification, then append one
history entry to the owning user's `reminder_history` — unless
`reminder.get("user_id")` is falsy (`if user_id:`), in which case the
history block is skipped entirely.  `fn` is the wall-clock instant read for
the entry's `when` field. -/
def handleFire (fn : Int) (st : AgentState) (r : Reminder) : AgentState :=
  let u := r.user_id
  if u = "" then st
  else
    let prefs := st.memory.get_user_pref u
    let entry : HistEntry := { id := r.id, when := fn, message := r.message }
    let prefs₁ : Prefs := { prefs with reminder_history := prefs.reminder_history ++ [entry] }
    { st with memory := st.memory.set_user_pref u prefs₁ }

/-- One iteration of the inner body of `ReminderAgent._run_loop` for the
reminder keyed `(u, rid)`: skip it when missing, terminal (`cancelled` or
`fired`) or not yet due; otherwise fire it.  `ok` says whether
`_handle_fire` completes without raising; a raise is modelled at the
notification side effect, before the history write.  On success the history
entry is written, the reminder is marked `fired` with `fired_at` stamped,
and the user is persisted; on a raise the reminder is marked `error` and
persisted.  `now` is the instant read once at the top of the tick, `fn` the
instant read at fire time. -/
def fireStep (now fn : Int) (ok : Bool) (u : UserId) (rid : Rid)
    (st : AgentState) : AgentState :=
  match alGet rid (userRems st u) with
  | none => st
  | some r =>
    if r.status = .cancelled ∨ r.status = .fired then st
    else if r.when ≤ now then
      if ok then
        let st₁ := handleFire fn st r
        let r₁ : Reminder := { r with status := .fired, fired_at := some fn }
        let st₂ : AgentState :=
          { st₁ with index := alSet u (alSet rid r₁ (userRems st₁ u)) st₁.index }
        persistForUser st₂ u
      else
        let r₁ : Reminder := { r with status := .error }
        let st₂ : AgentState :=
          { st with index := alSet u (alSet rid r₁ (userRems st u)) st.index }
        persistForUser st₂ u
    else st

/-- The key snapshot taken by `_run_loop`:
`list(self._index.items())` with `list(rems.items())` per user, reduced to
the keys (the reminder values are re-read through the live objects). -/
def snapshot (st : AgentState) : List (UserId × List Rid) :=
  st.index.map (fun p => (p.1, p.2.map Prod.fst))

/-- The inner loop of one tick for a single user: fire steps over that
user's snapshotted reminder ids in order. -/
def tickUser (now fn : Int) (ok : UserId → Rid → Bool) (u : UserId)
    (rids : List Rid) (st : AgentState) : AgentState :=
  rids.foldl (fun s rid => fireStep now fn (ok u rid) u rid s) st

/-- One full poll tick of `ReminderAgent._run_loop`: snapshot the index,
then run the per-user inner loops in order.  `now` is the single
`datetime.now(timezone.utc)` read at the top of the tick, `fn` the
fire-time clock read, and `ok u rid` tells whether the handler raises for
that reminder. -/
def tick (now fn : Int) (ok : UserId → Rid → Bool) (st : AgentState) :
    AgentState :=
  (snapshot st).foldl (fun s p => tickUser now fn ok p.1 p.2 s) st

/-- Well-formedness of an agent state, maintained by every operation:
user keys are distinct, each user's reminder keys are distinct, and every
stored reminder records its own key as `id` and its owning user as
`user_id` (as `schedule_reminder` guarantees). -/
def WF (st : AgentState) : Prop :=
  (st.index.map Prod.fst).Nodup ∧
    ∀ p ∈ st.index, (p.2.map Prod.fst).Nodup ∧
      ∀ q ∈ p.2, q.2.id = q.1 ∧ q.2.user_id = p.1

instance (st : AgentState) : Decidable (WF st) := by
  unfold WF; infer_instance

/-- Number of history entries recorded for a given reminder id. -/
def countId (rid : Rid) (h : List HistEntry) : Nat :=
  (h.filter (fun e => e.id = rid)).length

/-- A concrete populated state used by the witnesses: user `u1` holds a
scheduled reminder `r1` due at instant 30 (scheduled at instant 0). -/
def stW : AgentState := (schedule_reminder 0 {} "u1" (.iso 30 (some 0)) "m1" "r1").2

/-- The reminder stored in `stW` under `("u1", "r1")`. -/
def rW : Reminder :=
  { id := "r1", when := 30, message := "m1", user_id := "u1",
    status := .scheduled, created_at := 0 }

/-- Second witness state: `u1` additionally holds `r2` due at instant 20
(scheduled at instant 1, naive input). -/
def stW2 : AgentState := (schedule_reminder 1 stW "u1" (.iso 20 none) "m2" "r2").2

/-- The reminder stored in `stW2` under `("u1", "r2")`. -/
def rW2 : Reminder :=
  { id := "r2", when := 20, message := "m2", user_id := "u1",
    status := .scheduled, created_at := 1 }

/-- A sink success map that fails for every reminder except `r2`. -/
def okW : UserId → Rid → Bool := fun _ rid => rid == "r2"

/-- Witness state in which `r1` has already been fired (at instant 55). -/
def stF : AgentState := tick 50 55 (fun _ _ => true) stW

/-- The fired form of `rW` stored in `stF`. -/
def rF : Reminder := { rW with status := .fired, fired_at := some 55 }

/-! ### Association-list lemmas -/

theorem alGet_alSet_self {β : Type} (k : String) (v : β) (l : List (String × β)) :
    alGet k (alSet k v l) = some v := by
  induction l with
  | nil => simp [alGet, alSet]
  | cons p rest ih =>
    obtain ⟨k₁, v₁⟩ := p
    by_cases h : k₁ = k <;> simp [alGet, alSet, h, ih]

theorem alGet_alSet_ne {β : Type} (k k₀ : String) (v : β) (l : List (String × β))
    (h : k₀ ≠ k) : alGet k₀ (alSet k v l) = alGet k₀ l := by
  have hk : ¬k = k₀ := fun e => h e.symm
  induction l with
  | nil => simp [alGet, alSet, hk]
  | cons p rest ih =>
    obtain ⟨k₁, v₁⟩ := p
    by_cases h₁ : k₁ = k
    · subst h₁
      simp [alGet, alSet, hk]
    · simp only [alSet, if_neg h₁]
      by_cases h₂ : k₁ = k₀ <;> simp [alGet, h₂, ih]

theorem alGet_mem {β : Type} {k : String} {v : β} {l : List (String × β)}
    (h : alGet k l = some v) : (k, v) ∈ l := by
  induction l with
  | nil => simp [alGet] at h
  | cons p rest ih =>
    obtain ⟨k₁, v₁⟩ := p
    by_cases h₁ : k₁ = k
    · subst h₁
      simp [alGet] at h
      simp [h]
    · simp [alGet, h₁] at h
      exact List.mem_cons_of_mem _ (ih h)

theorem mem_alSet {β : Type} {k : String} {v : β} {l : List (String × β)}
    {q : String × β} (h : q ∈ alSet k v l) : q = (k, v) ∨ q ∈ l := by
  induction l with
  | nil => simpa [alSet] using h
  | cons p rest ih =>
    obtain ⟨k₁, v₁⟩ := p
    by_cases h₁ : k₁ = k
    · simp only [alSet, if_pos h₁] at h
      rcases List.mem_cons.1 h with h₂ | h₂
      · exact Or.inl h₂
      · exact Or.inr (List.mem_cons_of_mem _ h₂)
    · simp only [alSet, if_neg h₁] at h
      rcases List.mem_cons.1 h with h₂ | h₂
      · exact Or.inr (h₂ ▸ List.mem_cons_self _ _)
      · rcases ih h₂ with h₃ | h₃
        · exact Or.inl h₃
        · exact Or.inr (List.mem_cons_of_mem _ h₃)

theorem alGet_eq_none {β : Type} {k : String} {l : List (String × β)} :
    alGet k l = none ↔ k ∉ l.map Prod.fst := by
  induction l with
  | nil => simp [alGet]
  | cons p rest ih =>
    obtain ⟨k₁, v₁⟩ := p
    by_cases h₁ : k₁ = k
    · subst h₁
      simp [alGet]
    · rw [List.map_cons, List.mem_cons]
      simp only [alGet, if_neg h₁]
      rw [ih]
      constructor
      · rintro hn (he | hm)
        · exact h₁ he.symm
        · exact hn hm
      · intro hn hm
        exact hn (Or.inr hm)

theorem alSet_map_fst_of_some {β : Type} {k : String} {v₀ : β} (v : β)
    {l : List (String × β)} (h : alGet k l = some v₀) :
    (alSet k v l).map Prod.fst = l.map Prod.fst := by
  induction l with
  | nil => simp [alGet] at h
  | cons p rest ih =>
    obtain ⟨k₁, v₁⟩ := p
    by_cases h₁ : k₁ = k
    · subst h₁
      simp [alSet]
    · simp [alGet, h₁] at h
      simp [alSet, h₁, ih h]

theorem filter_key_eq_nil {β : Type} {k : String} {l : List (String × β)}
    (h : k ∉ l.map Prod.fst) :
    l.filter (fun q => q.1 = k) = [] := by
  induction l with
  | nil => rfl
  | cons p rest ih =>
    obtain ⟨k₁, v₁⟩ := p
    have h₁ : ¬k₁ = k := fun e => h (by simp [e])
    have h₂ : k ∉ rest.map Prod.fst := fun e => h (by simp [e])
    simp [List.filter_cons, h₁, ih h₂]

theorem alSet_filter_key {β : Type} (k : String) (v : β) (l : List (String × β))
    (h : (l.map Prod.fst).Nodup) :
    ((alSet k v l).filter (fun q => q.1 = k)).length = 1 := by
  induction l with
  | nil => simp [alSet]
  | cons p rest ih =>
    obtain ⟨k₁, v₁⟩ := p
    rw [List.map_cons, List.nodup_cons] at h
    by_cases h₁ : k₁ = k
    · subst h₁
      simp only [alSet, if_pos rfl]
      simp [List.filter_cons, filter_key_eq_nil h.1]
    · simp only [alSet, if_neg h₁]
      simp [List.filter_cons, h₁, ih h.2]

/-! ### Persistence helper lemmas -/

theorem persistForUser_index (st : AgentState) (u : UserId) :
    (persistForUser st u).index = st.index := rfl

theorem userRems_persistForUser (st : AgentState) (u₀ u : UserId) :
    userRems (persistForUser st u₀) u = userRems st u := rfl

theorem persisted_persistForUser_self (st : AgentState) (u : UserId) :
    persisted (persistForUser st u) u = userRems st u := by
  simp [persisted, persistForUser, MemoryBank.get_user_pref, MemoryBank.set_user_pref,
    alGet_alSet_self]

theorem get_user_pref_persistForUser_ne (st : AgentState) (u u₀ : UserId) (h : u₀ ≠ u) :
    (persistForUser st u).memory.get_user_pref u₀ = st.memory.get_user_pref u₀ := by
  simp [persistForUser, MemoryBank.get_user_pref, MemoryBank.set_user_pref,
    alGet_alSet_ne _ _ _ _ h]

theorem histOf_persistForUser (st : AgentState) (u u₀ : UserId) :
    histOf (persistForUser st u) u₀ = histOf st u₀ := by
  by_cases h : u₀ = u
  · subst h
    simp [histOf, persistForUser, MemoryBank.get_user_pref, MemoryBank.set_user_pref,
      alGet_alSet_self]
  · simp [histOf, get_user_pref_persistForUser_ne st u u₀ h]

theorem userRems_update (st : AgentState) (u : UserId) (x : List (Rid × Reminder)) :
    userRems { st with index := alSet u x st.index } u = x := by
  simp [userRems, alGet_alSet_self]

theorem userRems_update_ne (st : AgentState) (u u₀ : UserId) (x : List (Rid × Reminder))
    (h : u₀ ≠ u) :
    userRems { st with index := alSet u x st.index } u₀ = userRems st u₀ := by
  simp [userRems, alGet_alSet_ne _ _ _ _ h]

/-! ### Well-formedness helpers -/

theorem alGet_index_of_remOf {st : AgentState} {u : UserId} {rid : Rid} {r : Reminder}
    (h : remOf st u rid = some r) : alGet u st.index = some (userRems st u) := by
  unfold remOf userRems at *
  cases hg : alGet u st.index with
  | none => simp [hg, alGet] at h
  | some x => simp [hg]

theorem WF_fields {st : AgentState} {u : UserId} {rid : Rid} {r : Reminder}
    (hWF : WF st) (h : remOf st u rid = some r) : r.id = rid ∧ r.user_id = u := by
  have hidx := alGet_index_of_remOf h
  have hmem := alGet_mem hidx
  have hq := alGet_mem (h : alGet rid (userRems st u) = some r)
  exact (hWF.2 _ hmem).2 (rid, r) hq

theorem WF_nodup_user {st : AgentState} (hWF : WF st) (u : UserId) :
    ((userRems st u).map Prod.fst).Nodup := by
  unfold userRems
  cases hg : alGet u st.index with
  | none => simp
  | some x =>
    have hmem := alGet_mem hg
    simpa using (hWF.2 _ hmem).1

/-! ### Operation unfolding lemmas -/

theorem cancel_found_eq {st : AgentState} {u : UserId} {rid : Rid} {r : Reminder}
    (h : alGet rid (userRems st u) = some r) :
    cancel_reminder st u rid =
      (true, persistForUser
        { st with index := alSet u (alSet rid { r with status := .cancelled } (userRems st u)) st.index } u) := by
  unfold cancel_reminder
  rw [h]

theorem snooze_found_eq {st : AgentState} {u : UserId} {rid : Rid} {r : Reminder}
    (m : Int) (h : alGet rid (userRems st u) = some r) :
    snooze_reminder st u rid m =
      (some { r with when := r.when + 60 * m, status := .snoozed },
        persistForUser
          { st with index := alSet u (alSet rid { r with when := r.when + 60 * m, status := .snoozed } (userRems st u)) st.index } u) := by
  unfold snooze_reminder
  rw [h]

theorem remOf_after_set (st : AgentState) (u : UserId) (rid : Rid) (r₁ : Reminder) :
    remOf (persistForUser { st with index := alSet u (alSet rid r₁ (userRems st u)) st.index } u) u rid =
      some r₁ := by
  rw [remOf, userRems_persistForUser, userRems_update, alGet_alSet_self]

theorem remOf_after_set_ne (st : AgentState) (u : UserId) (rid rid₁ : Rid) (r₁ : Reminder)
    (h : rid₁ ≠ rid) :
    remOf (persistForUser { st with index := alSet u (alSet rid r₁ (userRems st u)) st.index } u) u rid₁ =
      remOf st u rid₁ := by
  rw [remOf, userRems_persistForUser, userRems_update, alGet_alSet_ne _ _ _ _ h, remOf]

theorem mirror_after_set (st : AgentState) (u : UserId) (x : List (Rid × Reminder)) :
    persisted (persistForUser { st with index := alSet u x st.index } u) u =
      userRems (persistForUser { st with index := alSet u x st.index } u) u := by
  rw [persisted_persistForUser_self, userRems_persistForUser]

/-! ### Stable sorting lemmas for `list_reminders` -/

theorem insertLE_perm (x : Reminder) (l : List Reminder) :
    (insertLE x l).Perm (x :: l) := by
  induction l with
  | nil => exact List.Perm.refl _
  | cons y ys ih =>
    by_cases h : y.when ≤ x.when
    · simp only [insertLE, if_pos h]
      exact (ih.cons y).trans (List.Perm.swap x y ys)
    · simp only [insertLE, if_neg h]
      exact List.Perm.refl _

theorem insertLE_pairwise (x : Reminder) (l : List Reminder)
    (h : l.Pairwise (fun a b => a.when ≤ b.when)) :
    (insertLE x l).Pairwise (fun a b => a.when ≤ b.when) := by
  induction l with
  | nil => simp [insertLE]
  | cons y ys ih =>
    rw [List.pairwise_cons] at h
    by_cases hle : y.when ≤ x.when
    · simp only [insertLE, if_pos hle]
      rw [List.pairwise_cons]
      refine ⟨?_, ih h.2⟩
      intro z hz
      rcases List.mem_cons.1 ((insertLE_perm x ys).mem_iff.1 hz) with hz | hz
      · subst hz; exact hle
      · exact h.1 z hz
    · simp only [insertLE, if_neg hle]
      rw [List.pairwise_cons]
      refine ⟨?_, List.pairwise_cons.2 ⟨h.1, h.2⟩⟩
      intro z hz
      rcases List.mem_cons.1 hz with hz | hz
      · subst hz; exact le_of_not_le hle
      · exact le_trans (le_of_not_le hle) (h.1 z hz)

theorem filter_eq_nil_of_none {α : Type} (p : α → Bool) (l : List α)
    (h : ∀ a ∈ l, p a = false) : l.filter p = [] := by
  induction l with
  | nil => rfl
  | cons a as ih =>
    simp [List.filter_cons, h a (List.mem_cons_self a as),
      ih (fun b hb => h b (List.mem_cons_of_mem _ hb))]

theorem insertLE_filter (x : Reminder) (l : List Reminder) (v : Int)
    (h : l.Pairwise (fun a b => a.when ≤ b.when)) :
    (insertLE x l).filter (fun r => r.when = v) =
      l.filter (fun r => r.when = v) ++ if x.when = v then [x] else [] := by
  induction l with
  | nil => by_cases hx : x.when = v <;> simp [insertLE, List.filter_cons, hx]
  | cons y ys ih =>
    rw [List.pairwise_cons] at h
    by_cases hle : y.when ≤ x.when
    · simp only [insertLE, if_pos hle]
      rw [List.filter_cons, List.filter_cons]
      by_cases hy : y.when = v <;> simp [hy, ih h.2]
    · simp only [insertLE, if_neg hle]
      by_cases hx : x.when = v
      · have hy : ¬y.when = v := fun e => hle (le_of_eq (by rw [e, hx]))
        have hys : (ys.filter (fun r => decide (r.when = v))) = [] := by
          refine filter_eq_nil_of_none _ ys (fun z hz => ?_)
          refine decide_eq_false (fun e => hle ?_)
          exact le_trans (h.1 z hz) (le_of_eq (by rw [e, hx]))
        simp [List.filter_cons, hx, hy, hys]
      · simp [List.filter_cons, hx]

theorem sortStable_fold (l acc : List Reminder)
    (h : acc.Pairwise (fun a b => a.when ≤ b.when)) :
    (l.foldl (fun a x => insertLE x a) acc).Pairwise (fun a b => a.when ≤ b.when) ∧
    (l.foldl (fun a x => insertLE x a) acc).Perm (acc ++ l) ∧
    ∀ v : Int, (l.foldl (fun a x => insertLE x a) acc).filter (fun r => r.when = v) =
      acc.filter (fun r => r.when = v) ++ l.filter (fun r => r.when = v) := by
  induction l generalizing acc with
  | nil => simp [h]
  | cons x xs ih =>
    have hacc := insertLE_pairwise x acc h
    obtain ⟨h₁, h₂, h₃⟩ := ih (insertLE x acc) hacc
    refine ⟨h₁, ?_, ?_⟩
    · refine h₂.trans ?_
      refine (List.Perm.append_right xs (insertLE_perm x acc)).trans ?_
      exact List.perm_middle.symm
    · intro v
      rw [List.foldl_cons, h₃ v, insertLE_filter x acc v h, List.filter_cons]
      by_cases hx : x.when = v <;> simp [hx]

/-! ### Firing machinery lemmas -/

theorem handleFire_empty (fn : Int) (st : AgentState) (r : Reminder)
    (h : r.user_id = "") : handleFire fn st r = st := by
  unfold handleFire
  rw [if_pos h]

theorem handleFire_index (fn : Int) (st : AgentState) (r : Reminder) :
    (handleFire fn st r).index = st.index := by
  unfold handleFire
  by_cases h : r.user_id = "" <;> simp [h]

theorem handleFire_get_ne (fn : Int) (st : AgentState) (r : Reminder) (u₀ : UserId)
    (h : u₀ ≠ r.user_id) :
    (handleFire fn st r).memory.get_user_pref u₀ = st.memory.get_user_pref u₀ := by
  unfold handleFire
  by_cases h₁ : r.user_id = ""
  · rw [if_pos h₁]
  · rw [if_neg h₁]
    simp [MemoryBank.get_user_pref, MemoryBank.set_user_pref, alGet_alSet_ne _ _ _ _ h]

theorem histOf_handleFire_self (fn : Int) (st : AgentState) (r : Reminder)
    (h : r.user_id ≠ "") :
    histOf (handleFire fn st r) r.user_id =
      histOf st r.user_id ++ [{ id := r.id, when := fn, message := r.message }] := by
  unfold handleFire
  rw [if_neg h]
  simp [histOf, MemoryBank.get_user_pref, MemoryBank.set_user_pref, alGet_alSet_self]

theorem persisted_handleFire (fn : Int) (st : AgentState) (r : Reminder) (u₀ : UserId) :
    persisted (handleFire fn st r) u₀ = persisted st u₀ := by
  by_cases h : u₀ = r.user_id
  · subst h
    unfold handleFire
    by_cases h₁ : r.user_id = ""
    · rw [if_pos h₁]
    · rw [if_neg h₁]
      simp [persisted, MemoryBank.get_user_pref, MemoryBank.set_user_pref, alGet_alSet_self]
  · unfold persisted
    rw [handleFire_get_ne fn st r u₀ h]

theorem userRems_index_congr {st₁ st₂ : AgentState} (h : st₁.index = st₂.index)
    (u : UserId) : userRems st₁ u = userRems st₂ u := by
  rw [userRems, userRems, h]

/-- Branch equations for `fireStep`. -/
theorem fireStep_eq_none (now fn : Int) (ok : Bool) (u : UserId) (rid : Rid)
    (st : AgentState) (h : alGet rid (userRems st u) = none) :
    fireStep now fn ok u rid st = st := by
  unfold fireStep
  rw [h]

theorem fireStep_eq_skip (now fn : Int) (ok : Bool) (u : UserId) (rid : Rid)
    (st : AgentState) (r : Reminder) (h : alGet rid (userRems st u) = some r)
    (ht : r.status = .cancelled ∨ r.status = .fired) :
    fireStep now fn ok u rid st = st := by
  unfold fireStep
  rw [h]
  exact if_pos ht

theorem fireStep_eq_notdue (now fn : Int) (ok : Bool) (u : UserId) (rid : Rid)
    (st : AgentState) (r : Reminder) (h : alGet rid (userRems st u) = some r)
    (ht : ¬(r.status = .cancelled ∨ r.status = .fired)) (hd : ¬r.when ≤ now) :
    fireStep now fn ok u rid st = st := by
  unfold fireStep
  rw [h]
  exact (if_neg ht).trans (if_neg hd)

theorem fireStep_eq_fire (now fn : Int) (u : UserId) (rid : Rid)
    (st : AgentState) (r : Reminder) (h : alGet rid (userRems st u) = some r)
    (ht : ¬(r.status = .cancelled ∨ r.status = .fired)) (hd : r.when ≤ now) :
    fireStep now fn true u rid st =
      persistForUser
        { handleFire fn st r with
          index := alSet u
            (alSet rid { r with status := .fired, fired_at := some fn }
              (userRems (handleFire fn st r) u))
            (handleFire fn st r).index } u := by
  unfold fireStep
  rw [h]
  exact (if_neg ht).trans ((if_pos hd).trans (if_pos rfl))

theorem fireStep_eq_error (now fn : Int) (u : UserId) (rid : Rid)
    (st : AgentState) (r : Reminder) (h : alGet rid (userRems st u) = some r)
    (ht : ¬(r.status = .cancelled ∨ r.status = .fired)) (hd : r.when ≤ now) :
    fireStep now fn false u rid st =
      persistForUser
        { st with
          index := alSet u
            (alSet rid { r with status := .error } (userRems st u))
            st.index } u := by
  unfold fireStep
  rw [h]
  exact (if_neg ht).trans ((if_pos hd).trans (if_neg (by simp)))

/-- Effects of a successful fire on the target reminder, the unaffected
keys, the history and the persisted mirror. -/
theorem fireStep_fire_spec (now fn : Int) (u : UserId) (rid : Rid)
    (st : AgentState) (r : Reminder) (h : alGet rid (userRems st u) = some r)
    (ht : ¬(r.status = .cancelled ∨ r.status = .fired)) (hd : r.when ≤ now)
    (hid : r.user_id = u) :
    remOf (fireStep now fn true u rid st) u rid =
      some { r with status := .fired, fired_at := some fn } ∧
    (∀ rid₁, rid₁ ≠ rid →
      remOf (fireStep now fn true u rid st) u rid₁ = remOf st u rid₁) ∧
    (∀ u₁, u₁ ≠ u →
      userRems (fireStep now fn true u rid st) u₁ = userRems st u₁ ∧
      (fireStep now fn true u rid st).memory.get_user_pref u₁ =
        st.memory.get_user_pref u₁) ∧
    histOf (fireStep now fn true u rid st) u =
      (if u = "" then histOf st u
       else histOf st u ++ [{ id := r.id, when := fn, message := r.message }]) ∧
    persisted (fireStep now fn true u rid st) u =
      userRems (fireStep now fn true u rid st) u := by
  rw [fireStep_eq_fire now fn u rid st r h ht hd]
  refine ⟨remOf_after_set .., ?_, ?_, ?_, mirror_after_set ..⟩
  · intro rid₁ hne
    rw [remOf_after_set_ne _ u rid rid₁ _ hne, remOf, remOf,
      userRems_index_congr (handleFire_index fn st r) u]
  · intro u₁ hne
    constructor
    · rw [userRems_persistForUser, userRems_update_ne _ u u₁ _ hne,
        userRems_index_congr (handleFire_index fn st r) u₁]
    · rw [get_user_pref_persistForUser_ne _ u u₁ hne]
      exact handleFire_get_ne fn st r u₁ (hid ▸ hne)
  · rw [histOf_persistForUser]
    by_cases hu : u = ""
    · rw [if_pos hu]
      have : handleFire fn st r = st := handleFire_empty fn st r (hid.trans hu)
      show histOf (handleFire fn st r) u = histOf st u
      rw [this]
    · rw [if_neg hu]
      show histOf (handleFire fn st r) u = _
      rw [← hid] at hu ⊢
      exact histOf_handleFire_self fn st r hu

/-- Effects of a failed fire (the handler raises): the reminder is marked
`error` and persisted, nothing else changes. -/
theorem fireStep_error_spec (now fn : Int) (u : UserId) (rid : Rid)
    (st : AgentState) (r : Reminder) (h : alGet rid (userRems st u) = some r)
    (ht : ¬(r.status = .cancelled ∨ r.status = .fired)) (hd : r.when ≤ now) :
    remOf (fireStep now fn false u rid st) u rid = some { r with status := .error } ∧
    (∀ rid₁, rid₁ ≠ rid →
      remOf (fireStep now fn false u rid st) u rid₁ = remOf st u rid₁) ∧
    (∀ u₁, u₁ ≠ u →
      userRems (fireStep now fn false u rid st) u₁ = userRems st u₁ ∧
      (fireStep now fn false u rid st).memory.get_user_pref u₁ =
        st.memory.get_user_pref u₁) ∧
    histOf (fireStep now fn false u rid st) u = histOf st u ∧
    persisted (fireStep now fn false u rid st) u =
      userRems (fireStep now fn false u rid st) u := by
  rw [fireStep_eq_error now fn u rid st r h ht hd]
  refine ⟨remOf_after_set .., ?_, ?_, histOf_persistForUser .., mirror_after_set ..⟩
  · intro rid₁ hne
    exact remOf_after_set_ne _ u rid rid₁ _ hne
  · intro u₁ hne
    exact ⟨by rw [userRems_persistForUser, userRems_update_ne _ u u₁ _ hne],
      get_user_pref_persistForUser_ne _ u u₁ hne⟩

/-! ### Preservation of well-formedness and of the key snapshot -/

theorem WF_index_congr {st₁ st₂ : AgentState} (h : st₁.index = st₂.index) :
    WF st₁ ↔ WF st₂ := by
  unfold WF
  rw [h]

theorem map_pair_alSet {l : List (UserId × List (Rid × Reminder))} {u : UserId}
    {rems x : List (Rid × Reminder)} (hg : alGet u l = some rems)
    (hfst : x.map Prod.fst = rems.map Prod.fst) :
    (alSet u x l).map (fun p => (p.1, p.2.map Prod.fst)) =
      l.map (fun p => (p.1, p.2.map Prod.fst)) := by
  induction l with
  | nil => simp [alGet] at hg
  | cons p rest ih =>
    obtain ⟨k₁, v₁⟩ := p
    by_cases h₁ : k₁ = u
    · subst h₁
      simp only [alGet, if_pos rfl] at hg
      obtain rfl := Option.some.inj hg
      simp [alSet, hfst]
    · simp only [alGet, if_neg h₁] at hg
      simp [alSet, h₁, ih hg]

theorem WF_set {st : AgentState} (hWF : WF st) {u : UserId}
    {rems : List (Rid × Reminder)} (hg : alGet u st.index = some rems)
    {x : List (Rid × Reminder)} (hfst : x.map Prod.fst = rems.map Prod.fst)
    (hfld : ∀ q ∈ x, q.2.id = q.1 ∧ q.2.user_id = u) :
    WF { st with index := alSet u x st.index } := by
  constructor
  · show ((alSet u x st.index).map Prod.fst).Nodup
    rw [alSet_map_fst_of_some x hg]
    exact hWF.1
  · intro p hp
    rcases mem_alSet hp with he | hm
    · subst he
      refine ⟨?_, hfld⟩
      show (x.map Prod.fst).Nodup
      rw [hfst]
      exact (hWF.2 _ (alGet_mem hg)).1
    · exact hWF.2 p hm

theorem fireStep_preserves (now fn : Int) (ok : Bool) (u : UserId) (rid : Rid)
    (st : AgentState) (hWF : WF st) :
    WF (fireStep now fn ok u rid st) ∧
      snapshot (fireStep now fn ok u rid st) = snapshot st := by
  cases hg : alGet rid (userRems st u) with
  | none =>
    rw [fireStep_eq_none now fn ok u rid st hg]
    exact ⟨hWF, rfl⟩
  | some r =>
    by_cases ht : r.status = .cancelled ∨ r.status = .fired
    · rw [fireStep_eq_skip now fn ok u rid st r hg ht]
      exact ⟨hWF, rfl⟩
    · by_cases hd : r.when ≤ now
      · have hgu : alGet u st.index = some (userRems st u) := alGet_index_of_remOf hg
        have hflds := WF_fields hWF hg
        cases ok with
        | false =>
          rw [fireStep_eq_error now fn u rid st r hg ht hd]
          have hfst : (alSet rid { r with status := .error } (userRems st u)).map Prod.fst =
              (userRems st u).map Prod.fst := alSet_map_fst_of_some _ hg
          have hfld : ∀ q ∈ alSet rid { r with status := .error } (userRems st u),
              q.2.id = q.1 ∧ q.2.user_id = u := by
            intro q hq
            rcases mem_alSet hq with he | hm
            · subst he
              exact ⟨hflds.1, hflds.2⟩
            · exact (hWF.2 _ (alGet_mem hgu)).2 q hm
          exact ⟨WF_set hWF hgu hfst hfld, map_pair_alSet hgu hfst⟩
        | true =>
          rw [fireStep_eq_fire now fn u rid st r hg ht hd]
          have hIdx := handleFire_index fn st r
          have hur := userRems_index_congr hIdx u
          have hfst : (alSet rid { r with status := .fired, fired_at := some fn } (userRems st u)).map Prod.fst =
              (userRems st u).map Prod.fst := alSet_map_fst_of_some _ hg
          have hfld : ∀ q ∈ alSet rid { r with status := .fired, fired_at := some fn } (userRems st u),
              q.2.id = q.1 ∧ q.2.user_id = u := by
            intro q hq
            rcases mem_alSet hq with he | hm
            · subst he
              exact ⟨hflds.1, hflds.2⟩
            · exact (hWF.2 _ (alGet_mem hgu)).2 q hm
          constructor
          · refine (WF_index_congr ?_).mpr (WF_set hWF hgu hfst hfld)
            show alSet u (alSet rid { r with status := .fired, fired_at := some fn }
                (userRems (handleFire fn st r) u)) (handleFire fn st r).index =
              alSet u (alSet rid { r with status := .fired, fired_at := some fn }
                (userRems st u)) st.index
            rw [hur, hIdx]
          · show (alSet u (alSet rid { r with status := .fired, fired_at := some fn }
                (userRems (handleFire fn st r) u)) (handleFire fn st r).index).map
                  (fun p => (p.1, p.2.map Prod.fst)) = snapshot st
            rw [hur, hIdx]
            exact map_pair_alSet hgu hfst
      · rw [fireStep_eq_notdue now fn ok u rid st r hg ht hd]
        exact ⟨hWF, rfl⟩

theorem alGet_split {β : Type} {k : String} {v : β} {l : List (String × β)}
    (h : alGet k l = some v) :
    ∃ l₁ l₂, l = l₁ ++ (k, v) :: l₂ ∧ k ∉ l₁.map Prod.fst := by
  induction l with
  | nil => simp [alGet] at h
  | cons p rest ih =>
    obtain ⟨k₁, v₁⟩ := p
    by_cases h₁ : k₁ = k
    · subst h₁
      simp only [alGet, if_pos rfl] at h
      obtain rfl := Option.some.inj h
      exact ⟨[], rest, rfl, by simp⟩
    · simp only [alGet, if_neg h₁] at h
      obtain ⟨l₁, l₂, heq, hni⟩ := ih h
      refine ⟨(k₁, v₁) :: l₁, l₂, by rw [heq, List.cons_append], ?_⟩
      rw [List.map_cons, List.mem_cons]
      rintro (he | hm)
      · exact h₁ he.symm
      · exact hni hm

theorem countId_append_other (rid : Rid) (h : List HistEntry) (e : HistEntry)
    (hne : e.id ≠ rid) : countId rid (h ++ [e]) = countId rid h := by
  simp [countId, List.filter_append, List.filter_cons, hne]

theorem countId_append_self (rid : Rid) (h : List HistEntry) (e : HistEntry)
    (he : e.id = rid) : countId rid (h ++ [e]) = countId rid h + 1 := by
  simp [countId, List.filter_append, List.filter_cons, he]

/-- Effect of one fire step on a *different* reminder id of the same user:
nothing observable changes for it, and an established persisted mirror
stays established. -/
theorem fireStep_step_frame (now fn : Int) (ok : Bool) (u : UserId) (rid : Rid)
    (st : AgentState) (rid₀ : Rid) (hne : rid₀ ≠ rid) (hWF : WF st) :
    remOf (fireStep now fn ok u rid st) u rid₀ = remOf st u rid₀ ∧
    countId rid₀ (histOf (fireStep now fn ok u rid st) u) =
      countId rid₀ (histOf st u) ∧
    (persisted st u = userRems st u →
      persisted (fireStep now fn ok u rid st) u =
        userRems (fireStep now fn ok u rid st) u) := by
  cases hg : alGet rid (userRems st u) with
  | none =>
    rw [fireStep_eq_none now fn ok u rid st hg]
    exact ⟨rfl, rfl, id⟩
  | some r =>
    by_cases ht : r.status = .cancelled ∨ r.status = .fired
    · rw [fireStep_eq_skip now fn ok u rid st r hg ht]
      exact ⟨rfl, rfl, id⟩
    · by_cases hd : r.when ≤ now
      · have hflds := WF_fields hWF hg
        cases ok with
        | false =>
          obtain ⟨h1, h2, h3, h4, h5⟩ := fireStep_error_spec now fn u rid st r hg ht hd
          exact ⟨h2 rid₀ hne, by rw [h4], fun _ => h5⟩
        | true =>
          obtain ⟨h1, h2, h3, h4, h5⟩ :=
            fireStep_fire_spec now fn u rid st r hg ht hd hflds.2
          refine ⟨h2 rid₀ hne, ?_, fun _ => h5⟩
          rw [h4]
          by_cases hu : u = ""
          · rw [if_pos hu]
          · rw [if_neg hu]
            refine countId_append_other rid₀ _ _ ?_
            show r.id ≠ rid₀
            rw [hflds.1]
            exact Ne.symm hne
      · rw [fireStep_eq_notdue now fn ok u rid st r hg ht hd]
        exact ⟨rfl, rfl, id⟩

/-- A fire step for one user leaves every other user's reminders and whole
preference bag untouched. -/
theorem fireStep_user_frame (now fn : Int) (ok : Bool) (u : UserId) (rid : Rid)
    (st : AgentState) (u₀ : UserId) (hne : u₀ ≠ u) (hWF : WF st) :
    userRems (fireStep now fn ok u rid st) u₀ = userRems st u₀ ∧
    (fireStep now fn ok u rid st).memory.get_user_pref u₀ =
      st.memory.get_user_pref u₀ := by
  cases hg : alGet rid (userRems st u) with
  | none =>
    rw [fireStep_eq_none now fn ok u rid st hg]
    exact ⟨rfl, rfl⟩
  | some r =>
    by_cases ht : r.status = .cancelled ∨ r.status = .fired
    · rw [fireStep_eq_skip now fn ok u rid st r hg ht]
      exact ⟨rfl, rfl⟩
    · by_cases hd : r.when ≤ now
      · cases ok with
        | false => exact (fireStep_error_spec now fn u rid st r hg ht hd).2.2.1 u₀ hne
        | true =>
          exact (fireStep_fire_spec now fn u rid st r hg ht hd
            (WF_fields hWF hg).2).2.2.1 u₀ hne
      · rw [fireStep_eq_notdue now fn ok u rid st r hg ht hd]
        exact ⟨rfl, rfl⟩

/-- Running the per-user inner loop over ids that avoid `rid₀` leaves that
reminder, its history count and an established mirror untouched, and
preserves well-formedness and the snapshot. -/
theorem tickUser_frame_rid (now fn : Int) (ok : UserId → Rid → Bool) (u : UserId)
    (l : List Rid) (st : AgentState) (rid₀ : Rid) (hni : rid₀ ∉ l) (hWF : WF st) :
    remOf (tickUser now fn ok u l st) u rid₀ = remOf st u rid₀ ∧
    countId rid₀ (histOf (tickUser now fn ok u l st) u) =
      countId rid₀ (histOf st u) ∧
    (persisted st u = userRems st u →
      persisted (tickUser now fn ok u l st) u =
        userRems (tickUser now fn ok u l st) u) ∧
    WF (tickUser now fn ok u l st) ∧
    snapshot (tickUser now fn ok u l st) = snapshot st := by
  induction l generalizing st with
  | nil => exact ⟨rfl, rfl, id, hWF, rfl⟩
  | cons rid l ih =>
    have hne : rid₀ ≠ rid := fun e => hni (e ▸ List.mem_cons_self rid l)
    have hni₁ : rid₀ ∉ l := fun hm => hni (List.mem_cons_of_mem _ hm)
    obtain ⟨s1, s2, s3⟩ := fireStep_step_frame now fn (ok u rid) u rid st rid₀ hne hWF
    obtain ⟨p1, p2⟩ := fireStep_preserves now fn (ok u rid) u rid st hWF
    obtain ⟨i1, i2, i3, i4, i5⟩ := ih (fireStep now fn (ok u rid) u rid st) hni₁ p1
    exact ⟨i1.trans s1, i2.trans s2, fun hm => i3 (s3 hm), i4, i5.trans p2⟩

/-- A reminder that is already terminal (`cancelled` or `fired`) survives
the whole inner loop unchanged. -/
theorem tickUser_terminal (now fn : Int) (ok : UserId → Rid → Bool) (u : UserId)
    (rids : List Rid) (st : AgentState) (rid : Rid) (r : Reminder)
    (hWF : WF st) (hr : alGet rid (userRems st u) = some r)
    (ht : r.status = .cancelled ∨ r.status = .fired) :
    remOf (tickUser now fn ok u rids st) u rid = some r ∧
    WF (tickUser now fn ok u rids st) ∧
    snapshot (tickUser now fn ok u rids st) = snapshot st := by
  induction rids generalizing st with
  | nil => exact ⟨hr, hWF, rfl⟩
  | cons rid₁ l ih =>
    by_cases he : rid₁ = rid
    · subst he
      have hstep : fireStep now fn (ok u rid₁) u rid₁ st = st :=
        fireStep_eq_skip now fn (ok u rid₁) u rid₁ st r hr ht
      have hfold : tickUser now fn ok u (rid₁ :: l) st =
          tickUser now fn ok u l (fireStep now fn (ok u rid₁) u rid₁ st) := rfl
      rw [hfold, hstep]
      exact ih st hWF hr
    · have hne : rid ≠ rid₁ := fun e => he e.symm
      obtain ⟨s1, _, _⟩ := fireStep_step_frame now fn (ok u rid₁) u rid₁ st rid hne hWF
      obtain ⟨p1, p2⟩ := fireStep_preserves now fn (ok u rid₁) u rid₁ st hWF
      obtain ⟨i1, i2, i3⟩ :=
        ih (fireStep now fn (ok u rid₁) u rid₁ st) p1 (s1.trans hr)
      exact ⟨i1, i2, i3.trans p2⟩

/-- The inner loop for one user leaves every other user's reminders and
preference bag untouched, and preserves well-formedness and the
snapshot. -/
theorem tickUser_frame_user (now fn : Int) (ok : UserId → Rid → Bool) (u : UserId)
    (rids : List Rid) (st : AgentState) (u₀ : UserId) (hne : u₀ ≠ u) (hWF : WF st) :
    userRems (tickUser now fn ok u rids st) u₀ = userRems st u₀ ∧
    (tickUser now fn ok u rids st).memory.get_user_pref u₀ =
      st.memory.get_user_pref u₀ ∧
    WF (tickUser now fn ok u rids st) ∧
    snapshot (tickUser now fn ok u rids st) = snapshot st := by
  induction rids generalizing st with
  | nil => exact ⟨rfl, rfl, hWF, rfl⟩
  | cons rid l ih =>
    obtain ⟨s1, s2⟩ := fireStep_user_frame now fn (ok u rid) u rid st u₀ hne hWF
    obtain ⟨p1, p2⟩ := fireStep_preserves now fn (ok u rid) u rid st hWF
    obtain ⟨i1, i2, i3, i4⟩ := ih (fireStep now fn (ok u rid) u rid st) p1
    exact ⟨i1.trans s1, i2.trans s2, i3, i4.trans p2⟩

/-- Full effect of the inner loop on a due, non-terminal reminder whose id
occurs (once) in the processed id list, when the handler succeeds. -/
theorem tickUser_target_fire (now fn : Int) (ok : UserId → Rid → Bool) (u : UserId)
    (rids : List Rid) (st : AgentState) (rid : Rid) (r : Reminder)
    (hWF : WF st) (hr : alGet rid (userRems st u) = some r)
    (ht : ¬(r.status = .cancelled ∨ r.status = .fired)) (hd : r.when ≤ now)
    (hok : ok u rid = true) (hmem : rid ∈ rids) (hnd : rids.Nodup) :
    remOf (tickUser now fn ok u rids st) u rid =
      some { r with status := .fired, fired_at := some fn } ∧
    (u ≠ "" → countId rid (histOf (tickUser now fn ok u rids st) u) =
      countId rid (histOf st u) + 1) ∧
    persisted (tickUser now fn ok u rids st) u =
      userRems (tickUser now fn ok u rids st) u ∧
    WF (tickUser now fn ok u rids st) ∧
    snapshot (tickUser now fn ok u rids st) = snapshot st := by
  obtain ⟨l₁, l₂, rfl⟩ := List.append_of_mem hmem
  have hnd₁ := List.nodup_middle.mp hnd
  rw [List.nodup_cons] at hnd₁
  have hm₁ : rid ∉ l₁ := fun hm => hnd₁.1 (List.mem_append_left _ hm)
  have hm₂ : rid ∉ l₂ := fun hm => hnd₁.1 (List.mem_append_right _ hm)
  have hfold : tickUser now fn ok u (l₁ ++ rid :: l₂) st =
      tickUser now fn ok u l₂
        (fireStep now fn (ok u rid) u rid (tickUser now fn ok u l₁ st)) := by
    unfold tickUser
    rw [List.foldl_append, List.foldl_cons]
  rw [hfold, hok]
  obtain ⟨a1, a2, a3, a4, a5⟩ := tickUser_frame_rid now fn ok u l₁ st rid hm₁ hWF
  have hr₁ : alGet rid (userRems (tickUser now fn ok u l₁ st) u) = some r := a1.trans hr
  have hflds₁ := WF_fields a4 hr₁
  obtain ⟨f1, f2, f3, f4, f5⟩ :=
    fireStep_fire_spec now fn u rid (tickUser now fn ok u l₁ st) r hr₁ ht hd hflds₁.2
  obtain ⟨p1, p2⟩ := fireStep_preserves now fn true u rid (tickUser now fn ok u l₁ st) a4
  obtain ⟨c1, c2, c3, c4, c5⟩ := tickUser_frame_rid now fn ok u l₂
    (fireStep now fn true u rid (tickUser now fn ok u l₁ st)) rid hm₂ p1
  refine ⟨c1.trans f1, ?_, c3 f5, c4, c5.trans (p2.trans a5)⟩
  intro hu
  rw [c2, f4, if_neg hu, countId_append_self rid _ _ (by show r.id = rid; exact hflds₁.1), a2]

/-- Full effect of the inner loop on a due, non-terminal reminder when the
handler raises: the reminder ends in `error`, no history entry for it is
written, and the mirror is re-established. -/
theorem tickUser_target_error (now fn : Int) (ok : UserId → Rid → Bool) (u : UserId)
    (rids : List Rid) (st : AgentState) (rid : Rid) (r : Reminder)
    (hWF : WF st) (hr : alGet rid (userRems st u) = some r)
    (ht : ¬(r.status = .cancelled ∨ r.status = .fired)) (hd : r.when ≤ now)
    (hok : ok u rid = false) (hmem : rid ∈ rids) (hnd : rids.Nodup) :
    remOf (tickUser now fn ok u rids st) u rid = some { r with status := .error } ∧
    countId rid (histOf (tickUser now fn ok u rids st) u) =
      countId rid (histOf st u) ∧
    persisted (tickUser now fn ok u rids st) u =
      userRems (tickUser now fn ok u rids st) u ∧
    WF (tickUser now fn ok u rids st) ∧
    snapshot (tickUser now fn ok u rids st) = snapshot st := by
  obtain ⟨l₁, l₂, rfl⟩ := List.append_of_mem hmem
  have hnd₁ := List.nodup_middle.mp hnd
  rw [List.nodup_cons] at hnd₁
  have hm₁ : rid ∉ l₁ := fun hm => hnd₁.1 (List.mem_append_left _ hm)
  have hm₂ : rid ∉ l₂ := fun hm => hnd₁.1 (List.mem_append_right _ hm)
  have hfold : tickUser now fn ok u (l₁ ++ rid :: l₂) st =
      tickUser now fn ok u l₂
        (fireStep now fn (ok u rid) u rid (tickUser now fn ok u l₁ st)) := by
    unfold tickUser
    rw [List.foldl_append, List.foldl_cons]
  rw [hfold, hok]
  obtain ⟨a1, a2, a3, a4, a5⟩ := tickUser_frame_rid now fn ok u l₁ st rid hm₁ hWF
  have hr₁ : alGet rid (userRems (tickUser now fn ok u l₁ st) u) = some r := a1.trans hr
  obtain ⟨f1, f2, f3, f4, f5⟩ :=
    fireStep_error_spec now fn u rid (tickUser now fn ok u l₁ st) r hr₁ ht hd
  obtain ⟨p1, p2⟩ := fireStep_preserves now fn false u rid (tickUser now fn ok u l₁ st) a4
  obtain ⟨c1, c2, c3, c4, c5⟩ := tickUser_frame_rid now fn ok u l₂
    (fireStep now fn false u rid (tickUser now fn ok u l₁ st)) rid hm₂ p1
  refine ⟨c1.trans f1, ?_, c3 f5, c4, c5.trans (p2.trans a5)⟩
  rw [c2, f4, a2]

/-- Folding the per-user loops over snapshot entries that avoid `u₀` leaves
that user's reminders and preference bag untouched. -/
theorem tick_entries_frame (now fn : Int) (ok : UserId → Rid → Bool)
    (entries : List (UserId × List Rid)) (st : AgentState) (u₀ : UserId)
    (hni : u₀ ∉ entries.map Prod.fst) (hWF : WF st) :
    userRems (entries.foldl (fun s p => tickUser now fn ok p.1 p.2 s) st) u₀ =
      userRems st u₀ ∧
    (entries.foldl (fun s p => tickUser now fn ok p.1 p.2 s) st).memory.get_user_pref u₀ =
      st.memory.get_user_pref u₀ ∧
    WF (entries.foldl (fun s p => tickUser now fn ok p.1 p.2 s) st) ∧
    snapshot (entries.foldl (fun s p => tickUser now fn ok p.1 p.2 s) st) =
      snapshot st := by
  induction entries generalizing st with
  | nil => exact ⟨rfl, rfl, hWF, rfl⟩
  | cons p l ih =>
    have hne : u₀ ≠ p.1 := by
      intro e
      exact hni (by rw [List.map_cons]; exact e ▸ List.mem_cons_self _ _)
    have hni₁ : u₀ ∉ l.map Prod.fst := by
      intro hm
      exact hni (by rw [List.map_cons]; exact List.mem_cons_of_mem _ hm)
    obtain ⟨s1, s2, s3, s4⟩ := tickUser_frame_user now fn ok p.1 p.2 st u₀ hne hWF
    obtain ⟨i1, i2, i3, i4⟩ := ih (tickUser now fn ok p.1 p.2 st) hni₁ s3
    exact ⟨i1.trans s1, i2.trans s2, i3, i4.trans s4⟩

/-- Effect of a whole tick, presented over the split snapshot (entries
before the target user, the target user's ids, entries after), when the
sink succeeds for the target. -/
theorem entries_fire_mid (now fn : Int) (ok : UserId → Rid → Bool)
    (p₁ p₂ : List (UserId × List Rid)) (st : AgentState) (u : UserId)
    (X : List Rid) (rid : Rid) (r : Reminder)
    (hWF : WF st) (hr : alGet rid (userRems st u) = some r)
    (ht : ¬(r.status = .cancelled ∨ r.status = .fired)) (hd : r.when ≤ now)
    (hok : ok u rid = true) (hmem : rid ∈ X) (hnd : X.Nodup)
    (hni₁ : u ∉ p₁.map Prod.fst) (hni₂ : u ∉ p₂.map Prod.fst) :
    remOf (p₂.foldl (fun s p => tickUser now fn ok p.1 p.2 s)
        (tickUser now fn ok u X
          (p₁.foldl (fun s p => tickUser now fn ok p.1 p.2 s) st))) u rid =
      some { r with status := .fired, fired_at := some fn } ∧
    (u ≠ "" → countId rid (histOf (p₂.foldl (fun s p => tickUser now fn ok p.1 p.2 s)
        (tickUser now fn ok u X
          (p₁.foldl (fun s p => tickUser now fn ok p.1 p.2 s) st))) u) =
      countId rid (histOf st u) + 1) ∧
    persisted (p₂.foldl (fun s p => tickUser now fn ok p.1 p.2 s)
        (tickUser now fn ok u X
          (p₁.foldl (fun s p => tickUser now fn ok p.1 p.2 s) st))) u =
      userRems (p₂.foldl (fun s p => tickUser now fn ok p.1 p.2 s)
        (tickUser now fn ok u X
          (p₁.foldl (fun s p => tickUser now fn ok p.1 p.2 s) st))) u ∧
    WF (p₂.foldl (fun s p => tickUser now fn ok p.1 p.2 s)
        (tickUser now fn ok u X
          (p₁.foldl (fun s p => tickUser now fn ok p.1 p.2 s) st))) := by
  obtain ⟨a1, a2, a3, a4⟩ := tick_entries_frame now fn ok p₁ st u hni₁ hWF
  have hr₁ : alGet rid
      (userRems (p₁.foldl (fun s p => tickUser now fn ok p.1 p.2 s) st) u) = some r :=
    (congrArg (alGet rid) a1).trans hr
  obtain ⟨b1, b2, b3, b4, b5⟩ := tickUser_target_fire now fn ok u X
    (p₁.foldl (fun s p => tickUser now fn ok p.1 p.2 s) st) rid r a3 hr₁ ht hd hok hmem hnd
  obtain ⟨c1, c2, c3, c4⟩ := tick_entries_frame now fn ok p₂
    (tickUser now fn ok u X (p₁.foldl (fun s p => tickUser now fn ok p.1 p.2 s) st))
    u hni₂ b4
  refine ⟨?_, ?_, ?_, c3⟩
  · rw [remOf, c1]
    exact b1
  · intro hu
    have e1 : histOf (p₂.foldl (fun s p => tickUser now fn ok p.1 p.2 s)
        (tickUser now fn ok u X
          (p₁.foldl (fun s p => tickUser now fn ok p.1 p.2 s) st))) u =
        histOf (tickUser now fn ok u X
          (p₁.foldl (fun s p => tickUser now fn ok p.1 p.2 s) st)) u := by
      unfold histOf
      rw [c2]
    have e2 : histOf (p₁.foldl (fun s p => tickUser now fn ok p.1 p.2 s) st) u =
        histOf st u := by
      unfold histOf
      rw [a2]
    rw [e1, b2 hu, e2]
  · have e3 : persisted (p₂.foldl (fun s p => tickUser now fn ok p.1 p.2 s)
        (tickUser now fn ok u X
          (p₁.foldl (fun s p => tickUser now fn ok p.1 p.2 s) st))) u =
        persisted (tickUser now fn ok u X
          (p₁.foldl (fun s p => tickUser now fn ok p.1 p.2 s) st)) u := by
      unfold persisted
      rw [c2]
    rw [e3, b3, ← c1]

/-- As `entries_fire_mid`, but the sink raises for the target reminder. -/
theorem entries_error_mid (now fn : Int) (ok : UserId → Rid → Bool)
    (p₁ p₂ : List (UserId × List Rid)) (st : AgentState) (u : UserId)
    (X : List Rid) (rid : Rid) (r : Reminder)
    (hWF : WF st) (hr : alGet rid (userRems st u) = some r)
    (ht : ¬(r.status = .cancelled ∨ r.status = .fired)) (hd : r.when ≤ now)
    (hok : ok u rid = false) (hmem : rid ∈ X) (hnd : X.Nodup)
    (hni₁ : u ∉ p₁.map Prod.fst) (hni₂ : u ∉ p₂.map Prod.fst) :
    remOf (p₂.foldl (fun s p => tickUser now fn ok p.1 p.2 s)
        (tickUser now fn ok u X
          (p₁.foldl (fun s p => tickUser now fn ok p.1 p.2 s) st))) u rid =
      some { r with status := .error } ∧
    countId rid (histOf (p₂.foldl (fun s p => tickUser now fn ok p.1 p.2 s)
        (tickUser now fn ok u X
          (p₁.foldl (fun s p => tickUser now fn ok p.1 p.2 s) st))) u) =
      countId rid (histOf st u) ∧
    persisted (p₂.foldl (fun s p => tickUser now fn ok p.1 p.2 s)
        (tickUser now fn ok u X
          (p₁.foldl (fun s p => tickUser now fn ok p.1 p.2 s) st))) u =
      userRems (p₂.foldl (fun s p => tickUser now fn ok p.1 p.2 s)
        (tickUser now fn ok u X
          (p₁.foldl (fun s p => tickUser now fn ok p.1 p.2 s) st))) u ∧
    WF (p₂.foldl (fun s p => tickUser now fn ok p.1 p.2 s)
        (tickUser now fn ok u X
          (p₁.foldl (fun s p => tickUser now fn ok p.1 p.2 s) st))) := by
  obtain ⟨a1, a2, a3, a4⟩ := tick_entries_frame now fn ok p₁ st u hni₁ hWF
  have hr₁ : alGet rid
      (userRems (p₁.foldl (fun s p => tickUser now fn ok p.1 p.2 s) st) u) = some r :=
    (congrArg (alGet rid) a1).trans hr
  obtain ⟨b1, b2, b3, b4, b5⟩ := tickUser_target_error now fn ok u X
    (p₁.foldl (fun s p => tickUser now fn ok p.1 p.2 s) st) rid r a3 hr₁ ht hd hok hmem hnd
  obtain ⟨c1, c2, c3, c4⟩ := tick_entries_frame now fn ok p₂
    (tickUser now fn ok u X (p₁.foldl (fun s p => tickUser now fn ok p.1 p.2 s) st))
    u hni₂ b4
  refine ⟨?_, ?_, ?_, c3⟩
  · rw [remOf, c1]
    exact b1
  · have e1 : histOf (p₂.foldl (fun s p => tickUser now fn ok p.1 p.2 s)
        (tickUser now fn ok u X
          (p₁.foldl (fun s p => tickUser now fn ok p.1 p.2 s) st))) u =
        histOf (tickUser now fn ok u X
          (p₁.foldl (fun s p => tickUser now fn ok p.1 p.2 s) st)) u := by
      unfold histOf
      rw [c2]
    have e2 : histOf (p₁.foldl (fun s p => tickUser now fn ok p.1 p.2 s) st) u =
        histOf st u := by
      unfold histOf
      rw [a2]
    rw [e1, b2, e2]
  · have e3 : persisted (p₂.foldl (fun s p => tickUser now fn ok p.1 p.2 s)
        (tickUser now fn ok u X
          (p₁.foldl (fun s p => tickUser now fn ok p.1 p.2 s) st))) u =
        persisted (tickUser now fn ok u X
          (p₁.foldl (fun s p => tickUser now fn ok p.1 p.2 s) st)) u := by
      unfold persisted
      rw [c2]
    rw [e3, b3, ← c1]

/-- As the previous two, for a terminal target reminder: nothing happens
to it. -/
theorem entries_terminal_mid (now fn : Int) (ok : UserId → Rid → Bool)
    (p₁ p₂ : List (UserId × List Rid)) (st : AgentState) (u : UserId)
    (X : List Rid) (rid : Rid) (r : Reminder)
    (hWF : WF st) (hr : alGet rid (userRems st u) = some r)
    (ht : r.status = .cancelled ∨ r.status = .fired)
    (hni₁ : u ∉ p₁.map Prod.fst) (hni₂ : u ∉ p₂.map Prod.fst) :
    remOf (p₂.foldl (fun s p => tickUser now fn ok p.1 p.2 s)
        (tickUser now fn ok u X
          (p₁.foldl (fun s p => tickUser now fn ok p.1 p.2 s) st))) u rid =
      some r := by
  obtain ⟨a1, a2, a3, a4⟩ := tick_entries_frame now fn ok p₁ st u hni₁ hWF
  have hr₁ : alGet rid
      (userRems (p₁.foldl (fun s p => tickUser now fn ok p.1 p.2 s) st) u) = some r :=
    (congrArg (alGet rid) a1).trans hr
  obtain ⟨b1, b2, b3⟩ := tickUser_terminal now fn ok u X
    (p₁.foldl (fun s p => tickUser now fn ok p.1 p.2 s) st) rid r a3 hr₁ ht
  obtain ⟨c1, c2, c3, c4⟩ := tick_entries_frame now fn ok p₂
    (tickUser now fn ok u X (p₁.foldl (fun s p => tickUser now fn ok p.1 p.2 s) st))
    u hni₂ b2
  rw [remOf, c1]
  exact b1

/-- Splitting a whole tick at the target user's snapshot entry. -/
theorem tick_split (now fn : Int) (ok : UserId → Rid → Bool) (st : AgentState)
    {u : UserId} {rid : Rid} {r : Reminder} (hWF : WF st)
    (hr : alGet rid (userRems st u) = some r) :
    ∃ i₁ i₂ : List (UserId × List (Rid × Reminder)),
      u ∉ (i₁.map (fun p => (p.1, p.2.map Prod.fst))).map Prod.fst ∧
      u ∉ (i₂.map (fun p => (p.1, p.2.map Prod.fst))).map Prod.fst ∧
      tick now fn ok st =
        (i₂.map (fun p => (p.1, p.2.map Prod.fst))).foldl
          (fun s p => tickUser now fn ok p.1 p.2 s)
          (tickUser now fn ok u ((userRems st u).map Prod.fst)
            ((i₁.map (fun p => (p.1, p.2.map Prod.fst))).foldl
              (fun s p => tickUser now fn ok p.1 p.2 s) st)) := by
  have hgu : alGet u st.index = some (userRems st u) := alGet_index_of_remOf hr
  obtain ⟨i₁, i₂, heq, hni₁⟩ := alGet_split hgu
  have hni₂ : u ∉ i₂.map Prod.fst := by
    have hnodup := hWF.1
    rw [heq, List.map_append, List.map_cons] at hnodup
    have h := List.nodup_middle.mp hnodup
    rw [List.nodup_cons] at h
    exact fun hm => h.1 (List.mem_append_right _ hm)
  refine ⟨i₁, i₂, ?_, ?_, ?_⟩
  · rw [List.map_map]
    exact hni₁
  · rw [List.map_map]
    exact hni₂
  · have hsnap : snapshot st =
        i₁.map (fun p => (p.1, p.2.map Prod.fst)) ++
          (u, (userRems st u).map Prod.fst) ::
            i₂.map (fun p => (p.1, p.2.map Prod.fst)) := by
      rw [snapshot, heq, List.map_append, List.map_cons]
    rw [tick, hsnap, List.foldl_append, List.foldl_cons]

/-- Effect of a whole tick on a due, non-terminal reminder whose sink call
succeeds. -/
theorem tick_fire_target (now fn : Int) (ok : UserId → Rid → Bool) (st : AgentState)
    (u : UserId) (rid : Rid) (r : Reminder)
    (hWF : WF st) (hr : alGet rid (userRems st u) = some r)
    (ht : ¬(r.status = .cancelled ∨ r.status = .fired)) (hd : r.when ≤ now)
    (hok : ok u rid = true) :
    remOf (tick now fn ok st) u rid =
      some { r with status := .fired, fired_at := some fn } ∧
    (u ≠ "" → countId rid (histOf (tick now fn ok st) u) =
      countId rid (histOf st u) + 1) ∧
    persisted (tick now fn ok st) u = userRems (tick now fn ok st) u ∧
    WF (tick now fn ok st) := by
  obtain ⟨i₁, i₂, hniA, hniB, htick⟩ := tick_split now fn ok st hWF hr
  rw [htick]
  exact entries_fire_mid now fn ok _ _ st u _ rid r hWF hr ht hd hok
    (List.mem_map_of_mem Prod.fst (alGet_mem hr)) (WF_nodup_user hWF u) hniA hniB

/-- Effect of a whole tick on a due, non-terminal reminder whose sink call
raises. -/
theorem tick_error_target (now fn : Int) (ok : UserId → Rid → Bool) (st : AgentState)
    (u : UserId) (rid : Rid) (r : Reminder)
    (hWF : WF st) (hr : alGet rid (userRems st u) = some r)
    (ht : ¬(r.status = .cancelled ∨ r.status = .fired)) (hd : r.when ≤ now)
    (hok : ok u rid = false) :
    remOf (tick now fn ok st) u rid = some { r with status := .error } ∧
    countId rid (histOf (tick now fn ok st) u) = countId rid (histOf st u) ∧
    persisted (tick now fn ok st) u = userRems (tick now fn ok st) u ∧
    WF (tick now fn ok st) := by
  obtain ⟨i₁, i₂, hniA, hniB, htick⟩ := tick_split now fn ok st hWF hr
  rw [htick]
  exact entries_error_mid now fn ok _ _ st u _ rid r hWF hr ht hd hok
    (List.mem_map_of_mem Prod.fst (alGet_mem hr)) (WF_nodup_user hWF u) hniA hniB

/-- A terminal (`cancelled` or `fired`) reminder is never transitioned by a
tick. -/
theorem tick_terminal_target (now fn : Int) (ok : UserId → Rid → Bool) (st : AgentState)
    (u : UserId) (rid : Rid) (r : Reminder)
    (hWF : WF st) (hr : alGet rid (userRems st u) = some r)
    (ht : r.status = .cancelled ∨ r.status = .fired) :
    remOf (tick now fn ok st) u rid = some r := by
  obtain ⟨i₁, i₂, hniA, hniB, htick⟩ := tick_split now fn ok st hWF hr
  rw [htick]
  exact entries_terminal_mid now fn ok _ _ st u _ rid r hWF hr ht hniA hniB

/-- `snooze_reminder` preserves well-formedness. -/
theorem snooze_WF {st : AgentState} {u : UserId} {rid : Rid} {r : Reminder}
    (m : Int) (hWF : WF st) (h : alGet rid (userRems st u) = some r) :
    WF (snooze_reminder st u rid m).2 := by
  rw [snooze_found_eq m h]
  have hgu : alGet u st.index = some (userRems st u) := alGet_index_of_remOf h
  have hflds := WF_fields hWF h
  have hfst : (alSet rid { r with when := r.when + 60 * m, status := .snoozed }
      (userRems st u)).map Prod.fst = (userRems st u).map Prod.fst :=
    alSet_map_fst_of_some _ h
  have hfld : ∀ q ∈ alSet rid { r with when := r.when + 60 * m, status := .snoozed }
      (userRems st u), q.2.id = q.1 ∧ q.2.user_id = u := by
    intro q hq
    rcases mem_alSet hq with he | hm
    · subst he
      exact ⟨hflds.1, hflds.2⟩
    · exact (hWF.2 _ (alGet_mem hgu)).2 q hm
  exact (WF_index_congr (persistForUser_index _ u)).mpr (WF_set hWF hgu hfst hfld)

/-! ### Claim theorems: the scheduler's caller-facing operations -/

/-- Mirror consequence of a successful fire step, independent of any
well-formedness assumption. -/
theorem fireStep_fire_mirror (now fn : Int) (u : UserId) (rid : Rid)
    (st : AgentState) (r : Reminder) (h : alGet rid (userRems st u) = some r)
    (ht : ¬(r.status = .cancelled ∨ r.status = .fired)) (hd : r.when ≤ now) :
    persisted (fireStep now fn true u rid st) u =
      userRems (fireStep now fn true u rid st) u := by
  rw [fireStep_eq_fire now fn u rid st r h ht hd]
  exact mirror_after_set ..

/-- C4: `_parse_time` follows the ordered policy — strict ISO parse first,
lenient parse on its failure, and the current instant on total failure
(never raising); inputs carrying an explicit offset are converted to UTC
(`wall - offset`), and naive inputs keep their wall-clock value
reinterpreted as UTC. -/
theorem parse_time_policy (now w off : Int) :
    parse_time now (.iso w (some off)) = w - off ∧
    parse_time now (.lenient w (some off)) = w - off ∧
    parse_time now (.iso w none) = w ∧
    parse_time now (.lenient w none) = w ∧
    parse_time now .unparseable = now ∧
    parse_time now .nullInput = now := by
  refine ⟨rfl, rfl, ?_, ?_, rfl, rfl⟩ <;> simp [parse_time]

/-- C9: cancelling a nonexistent reminder (unknown user or unknown id)
returns `false` and leaves the whole agent state — in-memory index and
persisted memory — unchanged. -/
theorem cancel_reminder_not_found (st : AgentState) (u : UserId) (rid : Rid)
    (h : remOf st u rid = none) :
    cancel_reminder st u rid = (false, st) := by
  unfold cancel_reminder
  rw [show alGet rid (userRems st u) = none from h]

/-- Witness for C9 at a concrete input: the cancelled id is absent and the
call returns `false` with the state unchanged. -/
theorem cancel_reminder_not_found_witness :
    remOf stW "u1" "r9" = none ∧ cancel_reminder stW "u1" "r9" = (false, stW) :=
  ⟨rfl, cancel_reminder_not_found stW "u1" "r9" rfl⟩

/-- C5: snoozing an existing reminder with stored `when = T` stores
`when = T + m` minutes — computed from the stored value, not from the
current clock (no clock argument even exists in the data path) — sets the
status to `snoozed`, persists the user's reminders, and returns the updated
reminder; an absent reminder yields `none` and no state change. -/
theorem snooze_reminder_spec (st : AgentState) (u : UserId) (rid : Rid) (m : Int) :
    (remOf st u rid = none → snooze_reminder st u rid m = (none, st)) ∧
    (∀ r, remOf st u rid = some r →
      (snooze_reminder st u rid m).1 =
        some { r with when := r.when + 60 * m, status := .snoozed } ∧
      remOf (snooze_reminder st u rid m).2 u rid =
        some { r with when := r.when + 60 * m, status := .snoozed } ∧
      persisted (snooze_reminder st u rid m).2 u =
        userRems (snooze_reminder st u rid m).2 u) := by
  constructor
  · intro h
    unfold snooze_reminder
    rw [show alGet rid (userRems st u) = none from h]
  · intro r h
    rw [snooze_found_eq m h]
    exact ⟨rfl, remOf_after_set .., mirror_after_set ..⟩

/-- Witness for C5: snoozing `r1` (due at 30) by 5 minutes yields `when =
330 = 30 + 5·60`, status `snoozed`. -/
theorem snooze_reminder_spec_witness :
    remOf stW "u1" "r1" = some rW ∧
    (snooze_reminder stW "u1" "r1" 5).1 =
      some { rW with when := rW.when + 60 * 5, status := .snoozed } ∧
    remOf (snooze_reminder stW "u1" "r1" 5).2 "u1" "r1" =
      some { rW with when := rW.when + 60 * 5, status := .snoozed } ∧
    persisted (snooze_reminder stW "u1" "r1" 5).2 "u1" =
      userRems (snooze_reminder stW "u1" "r1" 5).2 "u1" :=
  ⟨rfl, (snooze_reminder_spec stW "u1" "r1" 5).2 rW rfl⟩

/-- C6: cancelling an existing reminder returns `true`, force-overwrites its
status to `cancelled` whatever it was before (including `fired`), and
persists; a second cancel also returns `true` (and, being a total
function, cannot raise) and leaves the status `cancelled`. -/
theorem cancel_reminder_idempotent (st : AgentState) (u : UserId) (rid : Rid)
    (r : Reminder) (h : remOf st u rid = some r) :
    (cancel_reminder st u rid).1 = true ∧
    remOf (cancel_reminder st u rid).2 u rid = some { r with status := .cancelled } ∧
    persisted (cancel_reminder st u rid).2 u = userRems (cancel_reminder st u rid).2 u ∧
    (cancel_reminder (cancel_reminder st u rid).2 u rid).1 = true ∧
    remOf (cancel_reminder (cancel_reminder st u rid).2 u rid).2 u rid =
      some { r with status := .cancelled } := by
  have h₁ : remOf (cancel_reminder st u rid).2 u rid = some { r with status := .cancelled } := by
    rw [cancel_found_eq h]
    exact remOf_after_set ..
  refine ⟨?_, h₁, ?_, ?_, ?_⟩
  · rw [cancel_found_eq h]
  · rw [cancel_found_eq h]
    exact mirror_after_set ..
  · rw [cancel_found_eq h₁]
  · rw [cancel_found_eq h₁]
    exact remOf_after_set ..

/-- Witness for C6: cancelling the fired-free concrete reminder twice. -/
theorem cancel_reminder_idempotent_witness :
    remOf stW "u1" "r1" = some rW ∧
    (cancel_reminder stW "u1" "r1").1 = true ∧
    remOf (cancel_reminder stW "u1" "r1").2 "u1" "r1" = some { rW with status := .cancelled } ∧
    (cancel_reminder (cancel_reminder stW "u1" "r1").2 "u1" "r1").1 = true :=
  ⟨rfl, (cancel_reminder_idempotent stW "u1" "r1" rW rfl).1,
    (cancel_reminder_idempotent stW "u1" "r1" rW rfl).2.1,
    (cancel_reminder_idempotent stW "u1" "r1" rW rfl).2.2.2.1⟩

/-- C8: `schedule_reminder` builds a reminder with status `scheduled`, id
and owner as requested, stores it under `(u, rid)`, persists the user's
full reminder set, leaves other ids untouched, and overwrites a colliding
id so that exactly one entry with that key remains in the index. -/
theorem schedule_reminder_spec (now : Int) (st : AgentState) (u : UserId)
    (tin : TimeInput) (msg : String) (rid : Rid) :
    (schedule_reminder now st u tin msg rid).1.status = .scheduled ∧
    (schedule_reminder now st u tin msg rid).1.id = rid ∧
    (schedule_reminder now st u tin msg rid).1.user_id = u ∧
    remOf (schedule_reminder now st u tin msg rid).2 u rid =
      some (schedule_reminder now st u tin msg rid).1 ∧
    persisted (schedule_reminder now st u tin msg rid).2 u =
      userRems (schedule_reminder now st u tin msg rid).2 u ∧
    (∀ rid₁, rid₁ ≠ rid →
      remOf (schedule_reminder now st u tin msg rid).2 u rid₁ = remOf st u rid₁) ∧
    (WF st →
      ((userRems (schedule_reminder now st u tin msg rid).2 u).filter
          (fun q => q.1 = rid)).length = 1) := by
  refine ⟨rfl, rfl, rfl, remOf_after_set .., mirror_after_set .., ?_, ?_⟩
  · intro rid₁ hne
    exact remOf_after_set_ne st u rid rid₁ _ hne
  · intro hWF
    show ((userRems (persistForUser _ u) u).filter _).length = 1
    rw [userRems_persistForUser, userRems_update]
    exact alSet_filter_key rid _ _ (WF_nodup_user hWF u)

/-- Witness for C8: re-scheduling with the already-used id `r1` overwrites
the old entry, leaving exactly one `r1` entry. -/
theorem schedule_reminder_spec_witness :
    WF stW ∧
    remOf (schedule_reminder 1 stW "u1" (.iso 40 none) "m2" "r1").2 "u1" "r1" =
      some (schedule_reminder 1 stW "u1" (.iso 40 none) "m2" "r1").1 ∧
    ((userRems (schedule_reminder 1 stW "u1" (.iso 40 none) "m2" "r1").2 "u1").filter
        (fun q => q.1 = "r1")).length = 1 :=
  ⟨by decide, (schedule_reminder_spec 1 stW "u1" (.iso 40 none) "m2" "r1").2.2.2.1,
    (schedule_reminder_spec 1 stW "u1" (.iso 40 none) "m2" "r1").2.2.2.2.2.2 (by decide)⟩

/-- C7: `list_reminders` returns exactly the user's reminders (any status)
as a permutation of the stored values, in non-decreasing `when` order, with
ties resolved by insertion order (stability: filtering any `when` value
preserves the stored order); it is total, and an unknown user yields `[]`. -/
theorem list_reminders_spec (st : AgentState) (u : UserId) :
    (list_reminders st u).Perm ((userRems st u).map Prod.snd) ∧
    (list_reminders st u).Pairwise (fun a b => a.when ≤ b.when) ∧
    (∀ v : Int, (list_reminders st u).filter (fun r => r.when = v) =
      ((userRems st u).map Prod.snd).filter (fun r => r.when = v)) ∧
    (alGet u st.index = none → list_reminders st u = []) := by
  obtain ⟨h₁, h₂, h₃⟩ :=
    sortStable_fold ((userRems st u).map Prod.snd) [] List.Pairwise.nil
  refine ⟨?_, h₁, ?_, ?_⟩
  · simpa [list_reminders, sortStable] using h₂
  · intro v
    simpa [list_reminders, sortStable] using h₃ v
  · intro h
    simp [list_reminders, userRems, h, sortStable]

/-- Witness for C7 at a concrete input: an unknown user yields the empty
sequence. -/
theorem list_reminders_spec_witness :
    alGet "u2" stW.index = none ∧ list_reminders stW "u2" = [] :=
  ⟨rfl, (list_reminders_spec stW "u2").2.2.2 rfl⟩

/-! ### Claim theorems: the background poll loop -/

/-- C1 (amended): on a poll tick, every reminder whose status is not
`cancelled`/`fired` and whose `when ≤ now` is fired when the handler
succeeds: status becomes `fired`, `fired_at` is stamped with the fire-time
clock read, the user's state is persisted (the stored `reminders` attribute
mirrors the in-memory index), and — provided the user id is non-empty —
exactly one History Entry for that reminder id is appended to the user's
`reminder_history`; reminders whose status is `cancelled` or `fired` are
never transitioned by the loop. -/
theorem tick_fires_due_reminders (now fn : Int) (ok : UserId → Rid → Bool)
    (st : AgentState) (u : UserId) (rid : Rid) (r : Reminder)
    (hWF : WF st) (hr : remOf st u rid = some r) :
    (r.status ≠ .cancelled → r.status ≠ .fired → r.when ≤ now → ok u rid = true →
      remOf (tick now fn ok st) u rid =
        some { r with status := .fired, fired_at := some fn } ∧
      persisted (tick now fn ok st) u = userRems (tick now fn ok st) u ∧
      (u ≠ "" → countId rid (histOf (tick now fn ok st) u) =
        countId rid (histOf st u) + 1)) ∧
    ((r.status = .cancelled ∨ r.status = .fired) →
      remOf (tick now fn ok st) u rid = some r) := by
  constructor
  · intro h1 h2 hd hok
    have ht : ¬(r.status = .cancelled ∨ r.status = .fired) := by
      rintro (e | e)
      exacts [h1 e, h2 e]
    obtain ⟨x1, x2, x3, x4⟩ := tick_fire_target now fn ok st u rid r hWF hr ht hd hok
    exact ⟨x1, x3, x2⟩
  · intro ht
    exact tick_terminal_target now fn ok st u rid r hWF hr ht

/-- Witness for C1 (amended) at a concrete input: the due reminder of
`stW` is fired at a tick past its due time, with one history entry
recorded. -/
theorem tick_fires_due_reminders_witness :
    WF stW ∧ remOf stW "u1" "r1" = some rW ∧
    remOf (tick 50 55 (fun _ _ => true) stW) "u1" "r1" =
      some { rW with status := .fired, fired_at := some 55 } ∧
    countId "r1" (histOf (tick 50 55 (fun _ _ => true) stW) "u1") =
      countId "r1" (histOf stW "u1") + 1 :=
  ⟨by decide, rfl,
    ((tick_fires_due_reminders 50 55 (fun _ _ => true) stW "u1" "r1" rW
        (by decide) rfl).1 (by decide) (by decide) (by decide) rfl).1,
    ((tick_fires_due_reminders 50 55 (fun _ _ => true) stW "u1" "r1" rW
        (by decide) rfl).1 (by decide) (by decide) (by decide) rfl).2.2 (by decide)⟩

/-- Counterexample to C1 as stated: for the empty (falsy) user id,
`_handle_fire` skips the history block (`if user_id:`), yet the reminder
is fired, its status set and persisted — so "exactly one History Entry is
appended to the user's reminder_history" fails at this input. -/
theorem tick_empty_user_skips_history :
    remOf (tick 5 5 (fun _ _ => true)
        (schedule_reminder 0 {} "" (.iso 0 (some 0)) "m" "r1").2) "" "r1" =
      some
        { id := "r1", when := 0, message := "m", user_id := "",
          status := .fired, created_at := 0, fired_at := some 5 } ∧
    histOf (tick 5 5 (fun _ _ => true)
        (schedule_reminder 0 {} "" (.iso 0 (some 0)) "m" "r1").2) "" = [] :=
  ⟨rfl, rfl⟩

/-- C2 (amended): when the sink raises during firing, the reminder's
status is set to `error` and persisted, no history entry is recorded for
it, and the loop continues — another due non-terminal reminder of the same
user still fires within the same tick.  However `error` is not terminal
for the loop: the scan only skips `cancelled` and `fired`, so the errored
reminder is retried on any later tick where it is still due, and fires as
soon as the sink succeeds. -/
theorem tick_sink_failure_spec (now fn : Int) (ok : UserId → Rid → Bool)
    (st : AgentState) (u : UserId) (rid : Rid) (r : Reminder)
    (hWF : WF st) (hr : remOf st u rid = some r)
    (h1 : r.status ≠ .cancelled) (h2 : r.status ≠ .fired)
    (hd : r.when ≤ now) (hok : ok u rid = false) :
    remOf (tick now fn ok st) u rid = some { r with status := .error } ∧
    persisted (tick now fn ok st) u = userRems (tick now fn ok st) u ∧
    countId rid (histOf (tick now fn ok st) u) = countId rid (histOf st u) ∧
    (∀ rid₂ r₂, rid₂ ≠ rid → remOf st u rid₂ = some r₂ →
      r₂.status ≠ .cancelled → r₂.status ≠ .fired → r₂.when ≤ now →
      ok u rid₂ = true →
      remOf (tick now fn ok st) u rid₂ =
        some { r₂ with status := .fired, fired_at := some fn }) ∧
    (∀ now₂ fn₂ ok₂, ok₂ u rid = true → r.when ≤ now₂ →
      remOf (tick now₂ fn₂ ok₂ (tick now fn ok st)) u rid =
        some { r with status := .fired, fired_at := some fn₂ }) := by
  have ht : ¬(r.status = .cancelled ∨ r.status = .fired) := by
    rintro (e | e)
    exacts [h1 e, h2 e]
  obtain ⟨x1, x2, x3, x4⟩ := tick_error_target now fn ok st u rid r hWF hr ht hd hok
  refine ⟨x1, x3, x2, ?_, ?_⟩
  · intro rid₂ r₂ hne hr₂ h1₂ h2₂ hd₂ hok₂
    have ht₂ : ¬(r₂.status = .cancelled ∨ r₂.status = .fired) := by
      rintro (e | e)
      exacts [h1₂ e, h2₂ e]
    exact (tick_fire_target now fn ok st u rid₂ r₂ hWF hr₂ ht₂ hd₂ hok₂).1
  · intro now₂ fn₂ ok₂ hok₂ hd₂
    exact (tick_fire_target now₂ fn₂ ok₂ (tick now fn ok st) u rid
      { r with status := .error } x4 x1
      (by rintro (e | e) <;> exact RStatus.noConfusion e) hd₂ hok₂).1

/-- Witness for C2 (amended): in `stW2` the sink fails for `r1` and
succeeds for `r2`; one tick marks `r1` `error` while still firing `r2`,
and a later all-success tick fires the errored `r1`. -/
theorem tick_sink_failure_spec_witness :
    WF stW2 ∧ remOf stW2 "u1" "r1" = some rW ∧ okW "u1" "r1" = false ∧
    remOf (tick 50 55 okW stW2) "u1" "r1" = some { rW with status := .error } ∧
    remOf (tick 50 55 okW stW2) "u1" "r2" =
      some { rW2 with status := .fired, fired_at := some 55 } ∧
    remOf (tick 60 65 (fun _ _ => true) (tick 50 55 okW stW2)) "u1" "r1" =
      some { rW with status := .fired, fired_at := some 65 } :=
  ⟨by decide, rfl, rfl,
    (tick_sink_failure_spec 50 55 okW stW2 "u1" "r1" rW (by decide) rfl
      (by decide) (by decide) (by decide) rfl).1,
    (tick_sink_failure_spec 50 55 okW stW2 "u1" "r1" rW (by decide) rfl
      (by decide) (by decide) (by decide) rfl).2.2.2.1 "r2" rW2
      (by decide) rfl (by decide) (by decide) (by decide) rfl,
    (tick_sink_failure_spec 50 55 okW stW2 "u1" "r1" rW (by decide) rfl
      (by decide) (by decide) (by decide) rfl).2.2.2.2 60 65
      (fun _ _ => true) rfl (by decide)⟩

/-- Counterexample to C2 as stated: a reminder marked `error` by a failing
tick is retried by the next tick (the loop skips only `cancelled` and
`fired`) and fires once the sink succeeds — contradicting "the reminder is
not retried automatically on any later tick (error is a terminal
status)". -/
theorem errored_reminder_is_retried :
    remOf (tick 5 5 (fun _ _ => false)
        (schedule_reminder 0 {} "u1" (.iso 0 (some 0)) "m" "r1").2) "u1" "r1" =
      some
        { id := "r1", when := 0, message := "m", user_id := "u1",
          status := .error, created_at := 0, fired_at := none } ∧
    remOf (tick 6 7 (fun _ _ => true) (tick 5 5 (fun _ _ => false)
        (schedule_reminder 0 {} "u1" (.iso 0 (some 0)) "m" "r1").2)) "u1" "r1" =
      some
        { id := "r1", when := 0, message := "m", user_id := "u1",
          status := .fired, created_at := 0, fired_at := some 7 } :=
  ⟨rfl, rfl⟩

/-- C3: after any mutating operation returns — schedule, successful
cancel, successful snooze, or the background loop's fire step on a due
non-terminal reminder (whether the sink succeeds or raises) — the
`reminders` mapping persisted under the user's preference bag equals the
in-memory index entry for that user. -/
theorem mutations_mirror_persisted (st : AgentState) (u : UserId) :
    (∀ now tin msg rid,
      persisted (schedule_reminder now st u tin msg rid).2 u =
        userRems (schedule_reminder now st u tin msg rid).2 u) ∧
    (∀ rid r, remOf st u rid = some r →
      persisted (cancel_reminder st u rid).2 u =
        userRems (cancel_reminder st u rid).2 u) ∧
    (∀ rid m r, remOf st u rid = some r →
      persisted (snooze_reminder st u rid m).2 u =
        userRems (snooze_reminder st u rid m).2 u) ∧
    (∀ now fn ok rid r, remOf st u rid = some r →
      r.status ≠ .cancelled → r.status ≠ .fired → r.when ≤ now →
      persisted (fireStep now fn ok u rid st) u =
        userRems (fireStep now fn ok u rid st) u) := by
  refine ⟨?_, ?_, ?_, ?_⟩
  · intro now tin msg rid
    exact mirror_after_set ..
  · intro rid r h
    rw [cancel_found_eq h]
    exact mirror_after_set ..
  · intro rid m r h
    rw [snooze_found_eq m h]
    exact mirror_after_set ..
  · intro now fn ok rid r h h1 h2 hd
    have ht : ¬(r.status = .cancelled ∨ r.status = .fired) := by
      rintro (e | e)
      exacts [h1 e, h2 e]
    cases ok with
    | true => exact fireStep_fire_mirror now fn u rid st r h ht hd
    | false => exact (fireStep_error_spec now fn u rid st r h ht hd).2.2.2.2

/-- Witness for C3: each of the four mutating operations applied at the
concrete state re-establishes persisted = in-memory for `u1`. -/
theorem mutations_mirror_persisted_witness :
    remOf stW "u1" "r1" = some rW ∧
    persisted (schedule_reminder 2 stW "u1" (.iso 99 none) "m3" "r3").2 "u1" =
      userRems (schedule_reminder 2 stW "u1" (.iso 99 none) "m3" "r3").2 "u1" ∧
    persisted (cancel_reminder stW "u1" "r1").2 "u1" =
      userRems (cancel_reminder stW "u1" "r1").2 "u1" ∧
    persisted (snooze_reminder stW "u1" "r1" 5).2 "u1" =
      userRems (snooze_reminder stW "u1" "r1" 5).2 "u1" ∧
    persisted (fireStep 50 55 true "u1" "r1" stW) "u1" =
      userRems (fireStep 50 55 true "u1" "r1" stW) "u1" :=
  ⟨rfl, (mutations_mirror_persisted stW "u1").1 2 (.iso 99 none) "m3" "r3",
    (mutations_mirror_persisted stW "u1").2.1 "r1" rW rfl,
    (mutations_mirror_persisted stW "u1").2.2.1 "r1" 5 rW rfl,
    (mutations_mirror_persisted stW "u1").2.2.2 50 55 true "r1" rW rfl
      (by decide) (by decide) (by decide)⟩

/-- C10: `snooze_reminder` performs no terminal-state check — snoozing a
`fired` or `cancelled` reminder succeeds, sets status `snoozed` and pushes
`when` forward by `m` minutes, after which the background loop fires the
reminder (again) on any tick at which it has become due and the sink
succeeds. -/
theorem snooze_revives_terminal_reminders (st : AgentState) (u : UserId)
    (rid : Rid) (r : Reminder) (m : Int) (hWF : WF st)
    (hr : remOf st u rid = some r)
    (hterm : r.status = .fired ∨ r.status = .cancelled) :
    (snooze_reminder st u rid m).1 =
      some { r with when := r.when + 60 * m, status := .snoozed } ∧
    remOf (snooze_reminder st u rid m).2 u rid =
      some { r with when := r.when + 60 * m, status := .snoozed } ∧
    (∀ now fn ok, ok u rid = true → r.when + 60 * m ≤ now →
      remOf (tick now fn ok (snooze_reminder st u rid m).2) u rid =
        some
          { r with
            when := r.when + 60 * m, status := .fired,
            fired_at := some fn }) := by
  have hWF₁ := snooze_WF m hWF hr
  have hr₁ : remOf (snooze_reminder st u rid m).2 u rid =
      some { r with when := r.when + 60 * m, status := .snoozed } := by
    rw [snooze_found_eq m hr]
    exact remOf_after_set ..
  refine ⟨?_, hr₁, ?_⟩
  · rw [snooze_found_eq m hr]
  · intro now fn ok hok hd
    exact (tick_fire_target now fn ok (snooze_reminder st u rid m).2 u rid
      { r with when := r.when + 60 * m, status := .snoozed }
      hWF₁ hr₁ (by rintro (e | e) <;> exact RStatus.noConfusion e) hd hok).1

/-- Witness for C10: the already-fired `r1` of `stF` is snoozed by 10
minutes (pushing `when` to 630) and then fired again by a tick at 700. -/
theorem snooze_revives_terminal_reminders_witness :
    WF stF ∧ remOf stF "u1" "r1" = some rF ∧ rF.status = .fired ∧
    (snooze_reminder stF "u1" "r1" 10).1 =
      some { rF with when := rF.when + 60 * 10, status := .snoozed } ∧
    remOf (tick 700 700 (fun _ _ => true) (snooze_reminder stF "u1" "r1" 10).2)
        "u1" "r1" =
      some
        { rF with
          when := rF.when + 60 * 10, status := .fired,
          fired_at := some 700 } :=
  ⟨by decide, rfl, rfl,
    (snooze_revives_terminal_reminders stF "u1" "r1" rF 10 (by decide) rfl
      (Or.inl rfl)).1,
    (snooze_revives_terminal_reminders stF "u1" "r1" rF 10 (by decide) rfl
      (Or.inl rfl)).2.2 700 700 (fun _ _ => true) rfl (by decide)⟩

end EverydayAlly
